import Mathlib

/-!
Verification development for the CLIProxyAPI core: the thinking cache, the
signature cache, the OpenAI→Claude request translator's thinking extraction,
the rate-limit header parser and the rate-limit store.

Go strings are modelled as Lean `String` (lists of characters); Go `time.Time`
and `time.Duration` are modelled as `Int` nanoseconds, with the distinguished
value `goTimeZero` standing for the zero `time.Time`.  Go maps are modelled as
association lists with insert-or-replace update, mirroring one deterministic
iteration order (the claims proved here do not depend on Go's randomized map
iteration order, as noted at each use).  Fallible parsers return `Option`.
-/

namespace CLIProxy

/-! ## String utilities (Go `strings` / `regexp` operations on `List Char`) -/

abbrev Chars := List Char

/-- First occurrence of the pattern `pat` inside `s`: returns the text before
the occurrence and the text after it.  Models the scan a Go regex performs for
a literal pattern (leftmost match). -/
def findSub (pat : Chars) : Chars → Option (Chars × Chars)
  | [] => if pat = [] then some ([], []) else none
  | c :: rest =>
    if pat.isPrefixOf (c :: rest) then some ([], (c :: rest).drop pat.length)
    else
      match findSub pat rest with
      | some (pre, post) => some (c :: pre, post)
      | none => none

theorem isPrefixOf_length_le {l₁ l₂ : Chars} (h : l₁.isPrefixOf l₂ = true) :
    l₁.length ≤ l₂.length := by
  induction l₁ generalizing l₂ with
  | nil => simp
  | cons a t ih =>
    cases l₂ with
    | nil => simp [List.isPrefixOf] at h
    | cons b t₂ =>
      simp only [List.isPrefixOf, Bool.and_eq_true] at h
      simpa using ih h.2

theorem findSub_post_le {pat s pre post : Chars}
    (h : findSub pat s = some (pre, post)) : post.length ≤ s.length := by
  induction s generalizing pre with
  | nil =>
    simp only [findSub] at h
    split at h
    · simp_all
    · simp at h
  | cons c rest ih =>
    simp only [findSub] at h
    split at h
    · obtain ⟨h1, h2⟩ := Prod.mk.injEq .. ▸ Option.some.injEq .. ▸ h
      subst h2
      simpa using Nat.sub_le _ _
    · revert h
      cases hf : findSub pat rest with
      | none => intro h; simp at h
      | some pr =>
        intro h
        obtain ⟨pre', post'⟩ := pr
        simp only [Option.some.injEq, Prod.mk.injEq] at h
        obtain ⟨h1, h2⟩ := h
        subst h2
        exact Nat.le_succ_of_le (ih hf)

theorem findSub_post_lt {pat s pre post : Chars} (hp : pat ≠ [])
    (h : findSub pat s = some (pre, post)) : post.length < s.length := by
  induction s generalizing pre with
  | nil =>
    simp only [findSub] at h
    split at h
    · simp_all
    · simp at h
  | cons c rest ih =>
    simp only [findSub] at h
    split at h
    case isTrue hpre =>
      obtain ⟨h1, h2⟩ := Prod.mk.injEq .. ▸ Option.some.injEq .. ▸ h
      subst h2
      have hlen : 0 < pat.length := List.length_pos.mpr hp
      simp only [List.length_drop, List.length_cons]
      omega
    case isFalse =>
      revert h
      cases hf : findSub pat rest with
      | none => intro h; simp at h
      | some pr =>
        intro h
        obtain ⟨pre', post'⟩ := pr
        simp only [Option.some.injEq, Prod.mk.injEq] at h
        obtain ⟨h1, h2⟩ := h
        subst h2
        exact Nat.lt_succ_of_lt (ih hf)

/-- Go `strings.Contains`. -/
def containsSub (s sub : String) : Bool := (findSub sub.data s.data).isSome

/-- The whitespace class of Go `unicode.IsSpace`, restricted to the characters
that can occur in the texts of this development. -/
def goIsSpace (c : Char) : Bool :=
  c = ' ' || c = '\t' || c = '\n' || c = '\r' ||
  c = '\x0b' || c = '\x0c' || c = '\u0085' || c = ' '

/-- Go `strings.TrimSpace`. -/
def trimSpace (s : Chars) : Chars :=
  ((s.dropWhile goIsSpace).reverse.dropWhile goIsSpace).reverse

/-- Go `strings.ReplaceAll` for a non-empty literal pattern: replaces the
non-overlapping occurrences left to right.  Structural recursion on a fuel
that bounds the number of matches: every pattern used below is non-empty, so
each match consumes at least one character and `s.length + 1` units of fuel
always suffice (`findSub_post_lt`); the fuel never runs out. -/
def replaceAllSubGo (pat repl : Chars) : Nat → Chars → Chars
  | 0, s => s
  | fuel + 1, s =>
    match findSub pat s with
    | none => s
    | some (pre, post) => pre ++ repl ++ replaceAllSubGo pat repl fuel post

def replaceAllSub (pat repl : Chars) (s : Chars) : Chars :=
  replaceAllSubGo pat repl (s.length + 1) s

/-- Removal (replacement by the empty string) of every non-overlapping match of
the regex `openPat([\s\S]*?)closePat` with literal fences, as performed by
`ReplaceAllString(s, "")`: a match starts at an occurrence of `openPat` and
extends to the first following occurrence of `closePat` (lazy); scanning
resumes after the match.  For the fences used in this development no match can
start strictly inside an earlier fence occurrence, so scanning occurrence by
occurrence is exact. -/
def removeLazyBlocksGo (openPat closePat : Chars) : Nat → Chars → Chars
  | 0, s => s
  | fuel + 1, s =>
    match findSub openPat s with
    | none => s
    | some (pre, rest) =>
      match findSub closePat rest with
      | none => s
      | some (_, post) => pre ++ removeLazyBlocksGo openPat closePat fuel post

def removeLazyBlocks (openPat closePat : Chars) (s : Chars) : Chars :=
  removeLazyBlocksGo openPat closePat (s.length + 1) s

/-- Capture of the leftmost match of `openPat([\s\S]*?)closePat`
(`FindStringSubmatch`, capture group 1), `none` when the regex does not match. -/
def findLazyBlock (openPat closePat : Chars) (s : Chars) : Option Chars :=
  match findSub openPat s with
  | none => none
  | some (_, rest) =>
    match findSub closePat rest with
    | none => none
    | some (mid, _) => some mid

/-! ## Association lists modelling Go maps

A Go `map[string]V` is modelled as an association list with distinct keys;
`alSet` replaces in place or appends, `alDelete` removes the key's binding. -/

def alGet {α : Type} (k : String) : List (String × α) → Option α
  | [] => none
  | (k', v) :: rest => if k' = k then some v else alGet k rest

def alSet {α : Type} (k : String) (v : α) : List (String × α) → List (String × α)
  | [] => [(k, v)]
  | (k', v') :: rest => if k' = k then (k, v) :: rest else (k', v') :: alSet k v rest

def alDelete {α : Type} (k : String) : List (String × α) → List (String × α)
  | [] => []
  | (k', v') :: rest => if k' = k then rest else (k', v') :: alDelete k rest

/-! ## Thinking cache (`internal/cache/signature_cache.go`, thinking section)

Times are `Int` nanoseconds; `now - timestamp` mirrors `time.Since` /
`now.Sub`. -/

/-- Nanoseconds, mirroring Go `time.Time` / `time.Duration` arithmetic. -/
abbrev GoTime := Int

/-- `ThinkingCacheTTL = 2 * time.Hour`, in nanoseconds. -/
def thinkingCacheTTL : GoTime := 7200 * 1000000000

/-- `MaxThinkingEntriesPerSession = 100`. -/
def maxThinkingEntriesPerSession : Nat := 100

/-- One nanosecond-hour, for scenario statements. -/
def goHour : GoTime := 3600 * 1000000000

/-- `ThinkingEntry` of signature_cache.go. -/
structure ThinkingEntry where
  thinkingText : String
  signature : String
  timestamp : GoTime
deriving DecidableEq, Repr

/-- The inner `map[string]ThinkingEntry` of one session. -/
abbrev EntryMap := List (String × ThinkingEntry)

/-- The `thinkingCache` two-level map: sessionID → thinkingID → entry. -/
abbrev ThinkingCache := List (String × EntryMap)

/-- Insertion sort by ascending timestamp, modelling
`sort.Slice(oldest, func(i, j) { return oldest[i].ts.Before(oldest[j].ts) })`.
The claims proved below have pairwise-distinct timestamps, for which the sort
result is unique, so the unspecified tie order of `sort.Slice` and the
randomized map iteration order are immaterial. -/
def insertByTs (p : String × GoTime) : List (String × GoTime) → List (String × GoTime)
  | [] => [p]
  | q :: rest => if p.2 < q.2 then p :: q :: rest else q :: insertByTs p rest

def sortByTs : List (String × GoTime) → List (String × GoTime)
  | [] => []
  | p :: rest => insertByTs p (sortByTs rest)

/-- The capacity-eviction block of `CacheThinking` (executed when the session
already holds `MaxThinkingEntriesPerSession` entries): sweep the expired
entries, then if still at capacity delete the `max(1, count/4)` oldest by
timestamp. -/
def evictThinking (entries : EntryMap) (now : GoTime) : EntryMap :=
  let swept := entries.filter (fun p => ¬ now - p.2.timestamp > thinkingCacheTTL)
  if swept.length ≥ maxThinkingEntriesPerSession then
    let oldest := sortByTs (swept.map (fun p => (p.1, p.2.timestamp)))
    let toRemove := if oldest.length / 4 < 1 then 1 else oldest.length / 4
    (oldest.take toRemove).foldl (fun m p => alDelete p.1 m) swept
  else swept

/-- `CacheThinking`: no-op when sessionID, thinkingID or thinkingText is empty
(the signature is not checked); otherwise insert, evicting first when the
session is at capacity. -/
def cacheThinking (c : ThinkingCache) (sessionID thinkingID thinkingText signature : String)
    (now : GoTime) : ThinkingCache :=
  if sessionID = "" ∨ thinkingID = "" ∨ thinkingText = "" then c
  else
    let entries := (alGet sessionID c).getD []
    let entries :=
      if entries.length ≥ maxThinkingEntriesPerSession then evictThinking entries now
      else entries
    alSet sessionID (alSet thinkingID ⟨thinkingText, signature, now⟩ entries) c

/-- `GetCachedThinking`: returns the entry when present and not expired;
deletes the entry (and returns none) when expired.  The second component is
the thinking-cache state after the call. -/
def getCachedThinking (c : ThinkingCache) (sessionID thinkingID : String) (now : GoTime) :
    Option ThinkingEntry × ThinkingCache :=
  if sessionID = "" ∨ thinkingID = "" then (none, c)
  else
    match alGet sessionID c with
    | none => (none, c)
    | some entries =>
      match alGet thinkingID entries with
      | none => (none, c)
      | some entry =>
        if now - entry.timestamp > thinkingCacheTTL then
          (none, alSet sessionID (alDelete thinkingID entries) c)
        else (some entry, c)

/-! ## Signature cache (`internal/cache/signature_cache.go`, signature section)

The SHA-256 based `hashText` is passed as an opaque function parameter
`hashText : String → String`: the cache logic uses it only as a deterministic
key derivation, and every theorem below holds for the real hash as a special
case. -/

/-- `SignatureCacheTTL = 2 * time.Hour`, in nanoseconds. -/
def signatureCacheTTL : GoTime := 7200 * 1000000000

/-- `MinValidSignatureLen = 50`. -/
def minValidSignatureLen : Nat := 50

/-- The Gemini sentinel `"skip_thought_signature_validator"`. -/
def skipSentinel : String := "skip_thought_signature_validator"

/-- Go `len` of a string: its UTF-8 byte length. -/
def goStrLen (s : String) : Nat := s.data.foldl (fun n c => n + c.utf8Size) 0

/-- `GetModelGroup`: substring tests in the order gpt, claude, gemini; raw
model name otherwise. -/
def getModelGroup (modelName : String) : String :=
  if containsSub modelName "gpt" then "gpt"
  else if containsSub modelName "claude" then "claude"
  else if containsSub modelName "gemini" then "gemini"
  else modelName

/-- `SignatureEntry` of signature_cache.go. -/
structure SignatureEntry where
  signature : String
  timestamp : GoTime
deriving DecidableEq, Repr

/-- The inner `map[string]SignatureEntry` of one model group. -/
abbrev SigEntryMap := List (String × SignatureEntry)

/-- The `signatureCache` two-level map: model group → text hash → entry. -/
abbrev SigCache := List (String × SigEntryMap)

/-- `HasValidSignature` (two-argument form of signature_cache.go). -/
def hasValidSignature (modelName signature : String) : Bool :=
  (decide (signature ≠ "") && decide (minValidSignatureLen ≤ goStrLen signature)) ||
  (decide (signature = skipSentinel) && decide (getModelGroup modelName = "gemini"))

/-- `CacheSignature`. -/
def cacheSignature (hashText : String → String) (c : SigCache)
    (modelName text signature : String) (now : GoTime) : SigCache :=
  if text = "" ∨ signature = "" then c
  else if goStrLen signature < minValidSignatureLen then c
  else
    let groupKey := getModelGroup modelName
    let bucket := (alGet groupKey c).getD []
    alSet groupKey (alSet (hashText text) ⟨signature, now⟩ bucket) c

/-- `GetCachedSignature`: empty text or a miss yields the Gemini sentinel for
the gemini group and the empty string otherwise; a fresh hit returns the
signature and refreshes the entry's timestamp (sliding TTL); an expired hit
deletes the entry.  The second component is the cache state after the call. -/
def getCachedSignature (hashText : String → String) (c : SigCache)
    (modelName text : String) (now : GoTime) : String × SigCache :=
  let groupKey := getModelGroup modelName
  if text = "" then
    ((if groupKey = "gemini" then skipSentinel else ""), c)
  else
    match alGet groupKey c with
    | none => ((if groupKey = "gemini" then skipSentinel else ""), c)
    | some bucket =>
      let textHash := hashText text
      match alGet textHash bucket with
      | none => ((if groupKey = "gemini" then skipSentinel else ""), c)
      | some entry =>
        if now - entry.timestamp > signatureCacheTTL then
          ((if groupKey = "gemini" then skipSentinel else ""),
           alSet groupKey (alDelete textHash bucket) c)
        else
          (entry.signature, alSet groupKey (alSet textHash ⟨entry.signature, now⟩ bucket) c)

/-- Specification-side lookup: the fresh entry `GetCachedSignature` would hit,
none exactly when the call is a miss (empty text, absent bucket, absent entry,
or expired entry). -/
def sigLookupFresh (hashText : String → String) (c : SigCache)
    (modelName text : String) (now : GoTime) : Option SignatureEntry :=
  if text = "" then none
  else
    match alGet (getModelGroup modelName) c with
    | none => none
    | some bucket =>
      match alGet (hashText text) bucket with
      | none => none
      | some entry =>
        if now - entry.timestamp > signatureCacheTTL then none else some entry

/-! ## Thinking extraction
(`internal/translator/claude/openai/chat-completions/claude_openai_request.go`)

The regexes of the source are literal-fence patterns; they are modelled by the
exact scanners above. -/

/-- The pattern of `thinkTagRegex`, opening fence. -/
def thinkOpenPat : Chars := "<think>".data

/-- The pattern of `thinkTagRegex`, closing fence. -/
def thinkClosePat : Chars := "</think>".data

/-- The literal head of `thinkIdRegex`. -/
def thinkIdPat : Chars := "```plaintext:thinkId:".data

/-- A triple-backtick fence. -/
def ticksPat : Chars := "```".data

/-- The literal head of `legacyThinkingRegex`. -/
def legacyThinkingPat : Chars := "```plaintext:Thinking\n".data

/-- The literal head of `legacySignatureRegex`. -/
def legacySignaturePat : Chars := "```plaintext:Signature:".data

/-- The escaped-fence pattern unescaped by the legacy branch. -/
def escapedTicksPat : Chars := "\\`\\`\\`".data

/-- The character class `[a-f0-9]` of `thinkIdRegex`. -/
def isHexLower (c : Char) : Bool :=
  (decide ('a' ≤ c) && decide (c ≤ 'f')) || (decide ('0' ≤ c) && decide (c ≤ '9'))

/-- `thinkIdRegex.FindStringSubmatch`: the hex capture of the leftmost match of
the pattern head followed by a maximal non-empty run of `[a-f0-9]` and a
closing fence. -/
def findThinkIdGo : Nat → Chars → Option Chars
  | 0, _ => none
  | fuel + 1, s =>
    match findSub thinkIdPat s with
    | none => none
    | some (_, rest) =>
      let hex := rest.takeWhile isHexLower
      let after := rest.drop hex.length
      if hex ≠ [] ∧ ticksPat.isPrefixOf after then some hex
      else findThinkIdGo fuel rest

def findThinkId (s : Chars) : Option Chars :=
  findThinkIdGo (s.length + 1) s

/-- `thinkIdRegex.ReplaceAllString(s, "")`: every match of the marker removed,
scanning left to right.  No occurrence of the pattern head can start strictly
inside another (its only backticks are its first three characters), so
occurrence-by-occurrence scanning is exact. -/
def removeThinkIdMarkersGo : Nat → Chars → Chars
  | 0, s => s
  | fuel + 1, s =>
    match findSub thinkIdPat s with
    | none => s
    | some (pre, rest) =>
      let hex := rest.takeWhile isHexLower
      let after := rest.drop hex.length
      if hex ≠ [] ∧ ticksPat.isPrefixOf after then
        pre ++ removeThinkIdMarkersGo fuel (after.drop ticksPat.length)
      else pre ++ thinkIdPat ++ removeThinkIdMarkersGo fuel rest

def removeThinkIdMarkers (s : Chars) : Chars :=
  removeThinkIdMarkersGo (s.length + 1) s

/-- A content part of the Claude message built by the translator: the maps
`{type: "thinking", thinking, signature}` and `{type: "text", text}`. -/
inductive ContentPart where
  | thinking (thinking signature : String) : ContentPart
  | text (text : String) : ContentPart
deriving DecidableEq, Repr

/-- Modelled from the spec: `extractThinkingFromContent` invokes
`cache.HasValidSignature(entry.Signature)` with the signature alone (the
two-argument definition's model name is not available at that call site); per
the spec a signature passes validity when it is at least 50 characters long,
or is the Gemini sentinel. -/
def hasValidSignatureOnSig (signature : String) : Bool :=
  (decide (signature ≠ "") && decide (minValidSignatureLen ≤ goStrLen signature)) ||
  decide (signature = skipSentinel)

/-- The legacy unescape `strings.ReplaceAll(t, "\\`\\`\\`", "```")`. -/
def unescapeTicks (t : Chars) : Chars :=
  replaceAllSub escapedTicksPat ticksPat t

/-- The legacy-format branch and the cleanup branch of
`extractThinkingFromContent` (everything after the thinkId-marker branch). -/
def legacyOrCleanParts (text : Chars) : List ContentPart :=
  match findLazyBlock legacyThinkingPat ticksPat text,
        findLazyBlock legacySignaturePat ticksPat text with
  | some thinkingMatch, some signatureMatch =>
    let thinkingText := unescapeTicks thinkingMatch
    let remainingText := trimSpace (removeLazyBlocks legacySignaturePat ticksPat
      (removeLazyBlocks legacyThinkingPat ticksPat text))
    ContentPart.thinking ⟨thinkingText⟩ ⟨signatureMatch⟩ ::
      (if remainingText = [] then [] else [ContentPart.text ⟨remainingText⟩])
  | _, _ =>
    let cleanText := trimSpace (removeLazyBlocks legacySignaturePat ticksPat
      (removeLazyBlocks legacyThinkingPat ticksPat
        (removeThinkIdMarkers
          (removeLazyBlocks thinkOpenPat thinkClosePat text))))
    if cleanText = [] then [] else [ContentPart.text ⟨cleanText⟩]

/-- `extractThinkingFromContent(sessionID, text)` against the thinking-cache
state `c` at time `now`: restore the cached thinking block when the first
thinkId marker resolves to a fresh cache entry with a valid signature,
otherwise fall through to the legacy and cleanup branches. -/
def extractThinkingFromContent (c : ThinkingCache) (now : GoTime)
    (sessionID text : String) : List ContentPart :=
  match findThinkId text.data with
  | some hexChars =>
    let thinkingID : String := ⟨hexChars⟩
    match (getCachedThinking c sessionID thinkingID now).1 with
    | some entry =>
      if hasValidSignatureOnSig entry.signature then
        let remainingText := trimSpace (removeThinkIdMarkers
          (removeLazyBlocks thinkOpenPat thinkClosePat text.data))
        ContentPart.thinking entry.thinkingText entry.signature ::
          (if remainingText = [] then [] else [ContentPart.text ⟨remainingText⟩])
      else legacyOrCleanParts text.data
    | none => legacyOrCleanParts text.data
  | none => legacyOrCleanParts text.data

/-! ## Rate-limit header parser (`internal/usage`, ratelimit source)

An `http.Header` is a map from canonical header keys to value lists; it is
modelled as an association list of single values, with `Get` canonicalizing
its argument exactly as `textproto.CanonicalMIMEHeaderKey` does.  `time.Time`
values are epoch nanoseconds, with `goTimeZero` the zero `time.Time`
(0001-01-01T00:00:00Z); `float64` header values are modelled as exact
rationals (no claim below depends on binary rounding). -/

/-- Epoch nanoseconds of the zero `time.Time`, 0001-01-01T00:00:00 UTC. -/
def goTimeZero : GoTime := -62135596800000000000

abbrev Header := List (String × String)

/-- The token characters of `textproto.validHeaderFieldByte` besides the
alphanumerics (the last entry is the apostrophe). -/
def tokenSpecials : Chars := "!#$%&*+-.^_`|~".data ++ [Char.ofNat 39]

def isTokenChar (c : Char) : Bool :=
  (decide ('0' ≤ c) && decide (c ≤ '9')) || (decide ('a' ≤ c) && decide (c ≤ 'z')) ||
  (decide ('A' ≤ c) && decide (c ≤ 'Z')) || tokenSpecials.contains c

def asciiLower (c : Char) : Char :=
  if 'A' ≤ c ∧ c ≤ 'Z' then Char.ofNat (c.toNat + 32) else c

def asciiUpper (c : Char) : Char :=
  if 'a' ≤ c ∧ c ≤ 'z' then Char.ofNat (c.toNat - 32) else c

/-- The case-folding loop of `textproto.CanonicalMIMEHeaderKey`: uppercase at
the start and after each hyphen, lowercase elsewhere. -/
def canonChars : Bool → Chars → Chars
  | _, [] => []
  | upper, c :: rest =>
    (if upper then asciiUpper c else asciiLower c) :: canonChars (c = '-') rest

/-- `textproto.CanonicalMIMEHeaderKey`: canonicalize a valid token, return
anything else unchanged. -/
def canonicalMIMEHeaderKey (s : String) : String :=
  if s.data.all isTokenChar then ⟨canonChars true s.data⟩ else s

/-- `http.Header.Get`: canonicalize the name, return the first value stored
under exactly that key (the empty string when absent). -/
def headerGet (h : Header) (name : String) : String :=
  match h.find? (fun p => p.1 == canonicalMIMEHeaderKey name) with
  | some p => p.2
  | none => ""

/-- `RateLimitRecord`; `rlType` is the Go field `Type`. -/
structure RateLimitRecord where
  timestamp : GoTime
  source : String
  model : String
  rlType : String
  utilization5h : Rat
  status5h : String
  reset5h : GoTime
  utilization7d : Rat
  status7d : String
  reset7d : GoTime
  unifiedStatus : String
  unifiedReset : GoTime
  representativeClaim : String
  fallbackPercentage : Rat
  overageStatus : String
  overageDisabledReason : String
  organizationID : String
  requestsLimit : Int
  requestsRemaining : Int
  requestsReset : GoTime
  tokensLimit : Int
  tokensRemaining : Int
  tokensReset : GoTime
  inputTokensLimit : Int
  inputTokensRemaining : Int
  inputTokensReset : GoTime
  outputTokensLimit : Int
  outputTokensRemaining : Int
  outputTokensReset : GoTime
deriving DecidableEq, Repr

/-- The Go zero value of `RateLimitRecord`. -/
def emptyRateLimitRecord : RateLimitRecord :=
  { timestamp := goTimeZero, source := "", model := "", rlType := ""
    utilization5h := 0, status5h := "", reset5h := goTimeZero
    utilization7d := 0, status7d := "", reset7d := goTimeZero
    unifiedStatus := "", unifiedReset := goTimeZero, representativeClaim := ""
    fallbackPercentage := 0, overageStatus := "", overageDisabledReason := ""
    organizationID := ""
    requestsLimit := 0, requestsRemaining := 0, requestsReset := goTimeZero
    tokensLimit := 0, tokensRemaining := 0, tokensReset := goTimeZero
    inputTokensLimit := 0, inputTokensRemaining := 0, inputTokensReset := goTimeZero
    outputTokensLimit := 0, outputTokensRemaining := 0, outputTokensReset := goTimeZero }

/-- `RateLimitRecord.IsEmpty`. -/
def isEmptyRecord (r : RateLimitRecord) : Bool :=
  if r.rlType = "unified" then
    decide (r.status5h = "") && decide (r.status7d = "") && decide (r.unifiedStatus = "")
  else
    decide (r.requestsLimit = 0) && decide (r.tokensLimit = 0) &&
    decide (r.inputTokensLimit = 0) && decide (r.outputTokensLimit = 0)

def digitVal? (c : Char) : Option Nat :=
  if decide ('0' ≤ c) && decide (c ≤ '9') then some (c.toNat - 48) else none

/-- Base-ten value of a non-empty digit string. -/
def digitsVal (cs : Chars) : Option Nat :=
  if cs = [] then none
  else
    cs.foldl (fun acc c =>
      match acc, digitVal? c with
      | some n, some d => some (n * 10 + d)
      | _, _ => none) (some 0)

/-- `strconv.ParseInt(v, 10, 64)`: optional sign, decimal digits, 64-bit
signed range; `none` models the error return. -/
def goParseInt64 (s : String) : Option Int :=
  let cs := s.data
  let p : Bool × Chars :=
    match cs with
    | c :: rest =>
      if c = '+' then (false, rest) else if c = '-' then (true, rest) else (false, cs)
    | [] => (false, [])
  match digitsVal p.2 with
  | none => none
  | some n =>
    let v : Int := if p.1 then -(n : Int) else (n : Int)
    if v < -(2 ^ 63) ∨ 2 ^ 63 - 1 < v then none else some v

/-- `parseIntHeader`. -/
def parseIntHeader (h : Header) (name : String) : Int :=
  let v := headerGet h name
  if v = "" then 0 else (goParseInt64 v).getD 0

/-- Exponent suffix of a float literal: the whole remainder must be
`[eE][+-]?digits`, or empty. -/
def parseExpSuffix? (cs : Chars) : Option Int :=
  match cs with
  | [] => some 0
  | c :: rest =>
    if c = 'e' ∨ c = 'E' then
      let q : Bool × Chars :=
        match rest with
        | d :: rest2 =>
          if d = '+' then (false, rest2)
          else if d = '-' then (true, rest2)
          else (false, rest)
        | [] => (false, [])
      match digitsVal q.2 with
      | some e => if (q.2.takeWhile fun d => (digitVal? d).isSome) = q.2 then
          some (if q.1 then -(e : Int) else (e : Int)) else none
      | none => none
    else none

/-- `strconv.ParseFloat(v, 64)` for decimal literals, modelled exactly over
the rationals: `[+-]?(digits[.digits*]?|.digits+)([eE][+-]?digits)?`.  The
special forms (inf, NaN, hexadecimal floats) are modelled as parse failures;
no claim below exercises them. -/
def goParseFloat? (s : String) : Option Rat :=
  let cs := s.data
  let p : Bool × Chars :=
    match cs with
    | c :: rest =>
      if c = '+' then (false, rest) else if c = '-' then (true, rest) else (false, cs)
    | [] => (false, [])
  let ipart := p.2.takeWhile (fun c => (digitVal? c).isSome)
  let rest1 := p.2.drop ipart.length
  let q : Option (Chars × Chars) :=
    match rest1 with
    | c :: rest2 =>
      if c = '.' then
        let fpart := rest2.takeWhile (fun d => (digitVal? d).isSome)
        some (fpart, rest2.drop fpart.length)
      else some ([], rest1)
    | [] => some ([], [])
  match q with
  | none => none
  | some (fpart, rest3) =>
    if ipart = [] ∧ fpart = [] then none
    else
      match parseExpSuffix? rest3 with
      | none => none
      | some e =>
        let mant : Nat := (digitsVal (ipart ++ fpart)).getD 0
        let base : Rat := (mant : Rat) / ((10 : Rat) ^ fpart.length)
        let scaled : Rat :=
          if e ≥ 0 then base * (10 : Rat) ^ e.toNat else base / (10 : Rat) ^ (-e).toNat
        some (if p.1 then -scaled else scaled)

/-- `parseFloatHeader`. -/
def parseFloatHeader (v : String) : Rat :=
  let v : String := ⟨trimSpace v.data⟩
  if v = "" then 0 else (goParseFloat? v).getD 0

/-- Truncation toward zero of a rational, as Go `int64(f)`. -/
def ratTrunc (q : Rat) : Int := if q ≥ 0 then q.floor else -((-q).floor)

def isLeapYear (y : Int) : Bool :=
  (decide (y % 4 = 0) && decide (y % 100 ≠ 0)) || decide (y % 400 = 0)

def daysInMonth (y : Int) (m : Nat) : Nat :=
  if m = 2 then (if isLeapYear y then 29 else 28)
  else if m = 4 ∨ m = 6 ∨ m = 9 ∨ m = 11 then 30 else 31

/-- Days from the epoch 1970-01-01 of a proleptic-Gregorian civil date, using
floor division. -/
def daysFromCivil (y : Int) (m d : Nat) : Int :=
  let y' := if m ≤ 2 then y - 1 else y
  let era := Int.fdiv y' 400
  let yoe := y' - era * 400
  let mp : Int := ((m : Int) + 9) % 12
  let doy := Int.fdiv (153 * mp + 2) 5 + (d : Int) - 1
  let doe := yoe * 365 + Int.fdiv yoe 4 - Int.fdiv yoe 100 + doy
  era * 146097 + doe - 719468

def dig2 (a b : Char) : Option Nat :=
  match digitVal? a, digitVal? b with
  | some x, some y => some (x * 10 + y)
  | _, _ => none

def dig4 (a b c d : Char) : Option Nat :=
  match dig2 a b, dig2 c d with
  | some x, some y => some (x * 100 + y)
  | _, _ => none

/-- Fractional-second suffix: empty, or a decimal point with at least one
digit; nanoseconds use the first nine digits. -/
def parseFrac? (cs : Chars) : Option (Int × Chars) :=
  match cs with
  | c :: rest =>
    if c = '.' ∨ c = ',' then
      let digs := rest.takeWhile (fun d => (digitVal? d).isSome)
      if digs = [] then none
      else
        let d9 := digs.take 9 ++ List.replicate (9 - digs.length) '0'
        some (((digitsVal d9).getD 0 : Int), rest.drop digs.length)
    else some (0, cs)
  | [] => some (0, [])

/-- Zone suffix: `Z`, or `±hh:mm`; returns the offset east of UTC in
seconds. -/
def parseZone? (cs : Chars) : Option Int :=
  match cs with
  | ['Z'] => some 0
  | [c, z1, z2, colon, z3, z4] =>
    if (c = '+' ∨ c = '-') ∧ colon = ':' then
      match dig2 z1 z2, dig2 z3 z4 with
      | some zh, some zm =>
        if zh ≤ 23 ∧ zm ≤ 59 then
          some ((if c = '-' then (-1 : Int) else 1) * ((zh : Int) * 3600 + (zm : Int) * 60))
        else none
      | _, _ => none
    else none
  | _ => none

/-- `time.Parse(time.RFC3339, v)`: epoch nanoseconds on success. -/
def rfc3339ToNs (s : String) : Option Int :=
  match s.data with
  | y1 :: y2 :: y3 :: y4 :: s1 :: mo1 :: mo2 :: s2 :: d1 :: d2 :: tc ::
      hh1 :: hh2 :: c1 :: mi1 :: mi2 :: c2 :: ss1 :: ss2 :: rest =>
    if s1 = '-' ∧ s2 = '-' ∧ tc = 'T' ∧ c1 = ':' ∧ c2 = ':' then
      match dig4 y1 y2 y3 y4, dig2 mo1 mo2, dig2 d1 d2,
            dig2 hh1 hh2, dig2 mi1 mi2, dig2 ss1 ss2 with
      | some y, some mo, some d, some hh, some mi, some ss =>
        if 1 ≤ mo ∧ mo ≤ 12 ∧ 1 ≤ d ∧ d ≤ daysInMonth (y : Int) mo ∧
            hh ≤ 23 ∧ mi ≤ 59 ∧ ss ≤ 59 then
          match parseFrac? rest with
          | none => none
          | some (fracNs, rest2) =>
            match parseZone? rest2 with
            | none => none
            | some offsetSec =>
              some ((daysFromCivil (y : Int) mo d * 86400 +
                (hh : Int) * 3600 + (mi : Int) * 60 + (ss : Int) - offsetSec) *
                1000000000 + fracNs)
        else none
      | _, _, _, _, _, _ => none
    else none
  | _ => none

/-- `parseRFC3339Header`. -/
def parseRFC3339Header (h : Header) (name : String) : GoTime :=
  let v := headerGet h name
  if v = "" then goTimeZero
  else
    match rfc3339ToNs v with
    | some ns => ns
    | none => goTimeZero

/-- `parseUnixTimestamp`: decimal Unix seconds (fractional seconds preserved
to nanoseconds), falling back to RFC3339. -/
def parseUnixTimestamp (v : String) : GoTime :=
  let v : String := ⟨trimSpace v.data⟩
  if v = "" then goTimeZero
  else
    match goParseFloat? v with
    | some f =>
      let sec : Int := ratTrunc f
      let nsec : Int := ratTrunc ((f - (sec : Rat)) * 1000000000)
      sec * 1000000000 + nsec
    | none =>
      match rfc3339ToNs v with
      | some ns => ns
      | none => goTimeZero

/-- Go `strings.ToLower` (ASCII model). -/
def goToLower (s : String) : String := ⟨s.data.map asciiLower⟩

/-- `strings.ToLower(strings.TrimSpace(v))`, applied to status headers. -/
def statusNorm (v : String) : String := goToLower ⟨trimSpace v.data⟩

/-- One conditional block of `parseUnifiedHeaders`: apply the update and set
`found` when the header value is non-empty. -/
def puStep (found : Bool) (r : RateLimitRecord) (v : String)
    (upd : RateLimitRecord → String → RateLimitRecord) : Bool × RateLimitRecord :=
  if v ≠ "" then (true, upd r v) else (found, r)

/-- The thirteen header reads of `parseUnifiedHeaders`, in source order. -/
def unifiedSteps : List (String × (RateLimitRecord → String → RateLimitRecord)) :=
  [("Anthropic-Organization-Id", fun r v => {r with organizationID := v}),
   ("Anthropic-Ratelimit-Unified-5h-Utilization",
      fun r v => {r with utilization5h := parseFloatHeader v}),
   ("Anthropic-Ratelimit-Unified-5h-Status", fun r v => {r with status5h := statusNorm v}),
   ("Anthropic-Ratelimit-Unified-5h-Reset",
      fun r v => {r with reset5h := parseUnixTimestamp v}),
   ("Anthropic-Ratelimit-Unified-7d-Utilization",
      fun r v => {r with utilization7d := parseFloatHeader v}),
   ("Anthropic-Ratelimit-Unified-7d-Status", fun r v => {r with status7d := statusNorm v}),
   ("Anthropic-Ratelimit-Unified-7d-Reset",
      fun r v => {r with reset7d := parseUnixTimestamp v}),
   ("Anthropic-Ratelimit-Unified-Status", fun r v => {r with unifiedStatus := statusNorm v}),
   ("Anthropic-Ratelimit-Unified-Reset",
      fun r v => {r with unifiedReset := parseUnixTimestamp v}),
   ("Anthropic-Ratelimit-Unified-Representative-Claim",
      fun r v => {r with representativeClaim := ⟨trimSpace v.data⟩}),
   ("Anthropic-Ratelimit-Unified-Fallback-Percentage",
      fun r v => {r with fallbackPercentage := parseFloatHeader v}),
   ("Anthropic-Ratelimit-Unified-Overage-Status",
      fun r v => {r with overageStatus := statusNorm v}),
   ("Anthropic-Ratelimit-Unified-Overage-Disabled-Reason",
      fun r v => {r with overageDisabledReason := ⟨trimSpace v.data⟩})]

/-- `parseUnifiedHeaders`: sequential conditional reads; the Boolean is the
`found` result. -/
def parseUnifiedHeaders (h : Header) (r : RateLimitRecord) : Bool × RateLimitRecord :=
  unifiedSteps.foldl (fun p st => puStep p.1 p.2 (headerGet h st.1) st.2) (false, r)

/-- `parseStandardHeaders`. -/
def parseStandardHeaders (h : Header) (r : RateLimitRecord) : RateLimitRecord :=
  { r with
    requestsLimit := parseIntHeader h "anthropic-ratelimit-requests-limit"
    requestsRemaining := parseIntHeader h "anthropic-ratelimit-requests-remaining"
    requestsReset := parseRFC3339Header h "anthropic-ratelimit-requests-reset"
    tokensLimit := parseIntHeader h "anthropic-ratelimit-tokens-limit"
    tokensRemaining := parseIntHeader h "anthropic-ratelimit-tokens-remaining"
    tokensReset := parseRFC3339Header h "anthropic-ratelimit-tokens-reset"
    inputTokensLimit := parseIntHeader h "anthropic-ratelimit-input-tokens-limit"
    inputTokensRemaining := parseIntHeader h "anthropic-ratelimit-input-tokens-remaining"
    inputTokensReset := parseRFC3339Header h "anthropic-ratelimit-input-tokens-reset"
    outputTokensLimit := parseIntHeader h "anthropic-ratelimit-output-tokens-limit"
    outputTokensRemaining := parseIntHeader h "anthropic-ratelimit-output-tokens-remaining"
    outputTokensReset := parseRFC3339Header h "anthropic-ratelimit-output-tokens-reset" }

/-- `ParseRateLimitHeaders`: unified extraction first, standard as fallback. -/
def parseRateLimitHeaders (h : Header) (now : GoTime) : RateLimitRecord :=
  let r := {emptyRateLimitRecord with timestamp := now}
  let p := parseUnifiedHeaders h r
  if p.1 then {p.2 with rlType := "unified"}
  else
    let r2 := parseStandardHeaders h p.2
    if ¬ isEmptyRecord r2 then {r2 with rlType := "standard"} else r2

/-- At least one of the thirteen unified headers is present (non-empty). -/
def unifiedPresent (h : Header) : Bool :=
  unifiedSteps.any (fun st => headerGet h st.1 != "")

/-- The twelve standard token-bucket fields, as one tuple. -/
def stdProj (r : RateLimitRecord) :
    Int × Int × GoTime × Int × Int × GoTime × Int × Int × GoTime × Int × Int × GoTime :=
  (r.requestsLimit, r.requestsRemaining, r.requestsReset,
   r.tokensLimit, r.tokensRemaining, r.tokensReset,
   r.inputTokensLimit, r.inputTokensRemaining, r.inputTokensReset,
   r.outputTokensLimit, r.outputTokensRemaining, r.outputTokensReset)

/-- The thirteen unified fields, as one tuple. -/
def uniProj (r : RateLimitRecord) :
    Rat × String × GoTime × Rat × String × GoTime × String × GoTime × String ×
      Rat × String × String × String :=
  (r.utilization5h, r.status5h, r.reset5h,
   r.utilization7d, r.status7d, r.reset7d,
   r.unifiedStatus, r.unifiedReset, r.representativeClaim,
   r.fallbackPercentage, r.overageStatus, r.overageDisabledReason, r.organizationID)

/-- All twelve standard fields are zero (the zero instant for resets). -/
def standardFieldsZero (r : RateLimitRecord) : Prop :=
  stdProj r = stdProj emptyRateLimitRecord

/-- All thirteen unified fields are zero (empty strings, zero rationals, the
zero instant). -/
def unifiedFieldsZero (r : RateLimitRecord) : Prop :=
  uniProj r = uniProj emptyRateLimitRecord

/-! ## Rate-limit store (`RateLimitStore`) -/

/-- `maxRecordAge = 7 * 24 * time.Hour`, in nanoseconds. -/
def maxRecordAge : GoTime := 7 * 24 * 3600 * 1000000000

/-- `cleanupLocked`: keep the records whose timestamp is after `now − 7d`. -/
def cleanupLocked (records : List RateLimitRecord) (now : GoTime) : List RateLimitRecord :=
  records.filter (fun r => r.timestamp > now - maxRecordAge)

/-- The `Record` method: skip empty records, default a zero timestamp to now,
append, and run the retention sweep on every 100th append (the asynchronous
save is I/O and does not touch the record list). -/
def storeRecord (records : List RateLimitRecord) (r : RateLimitRecord) (now : GoTime) :
    List RateLimitRecord :=
  if isEmptyRecord r then records
  else
    let r := if r.timestamp = goTimeZero then {r with timestamp := now} else r
    let records := records ++ [r]
    if records.length % 100 = 0 then cleanupLocked records now else records

/-- The `Latest` method: the most recently appended record. -/
def storeLatest (records : List RateLimitRecord) : Option RateLimitRecord :=
  records.getLast?

/-! ## Tool-declaration mapping (`ConvertOpenAIRequestToClaude`, tools loop) -/

structure OpenAIFunctionDef where
  name : String
  description : String
  parameters : Option String
  parametersJsonSchema : Option String
deriving DecidableEq, Repr

/-- One entry of the input `tools` array; schema subtrees are carried as raw
JSON strings, exactly as `sjson.SetRaw` would forward them. -/
structure OpenAITool where
  toolType : Option String
  function : OpenAIFunctionDef
  name : String
  description : String
  inputSchema : Option String
deriving DecidableEq, Repr

structure ClaudeTool where
  name : String
  description : String
  inputSchema : Option String
deriving DecidableEq, Repr

/-- The tool declaration the loop body of the tools mapping constructs for one
input entry: `{name, description, input_schema: parameters ??
parametersJsonSchema}` for `type == "function"`, the bare Cursor-style fields
when `type` is absent, nothing for other types. -/
def claudeToolOfEntry (tool : OpenAITool) : Option ClaudeTool :=
  match tool.toolType with
  | some t =>
    if t = "function" then
      some { name := tool.function.name, description := tool.function.description,
             inputSchema := tool.function.parameters <|> tool.function.parametersJsonSchema }
    else none
  | none =>
    some { name := tool.name, description := tool.description,
           inputSchema := tool.inputSchema }

/-- The declarations accumulated by the loop into its `anthropicTools` local. -/
def anthropicToolsBuilt (tools : List OpenAITool) : List ClaudeTool :=
  tools.filterMap claudeToolOfEntry

/-- The `tools` field of the translated request as the source actually leaves
it: the loop stores its declarations only into the local `anthropicTools`,
which is never written into `out`, and `hasAnthropicTools` is never set to
true, so the trailing `sjson.Delete(out, "tools")` leaves the output without
a `tools` key for every input. -/
def toolsFieldInOutput (tools : List OpenAITool) : Option (List ClaudeTool) :=
  match tools with
  | _ => none

/-- One nanosecond-day. -/
def goDay : GoTime := 24 * 3600 * 1000000000

/-- A sequence of `n` thinking-cache puts into session `s` with ids `f i`,
texts `T i`, signatures `sig i` and timestamps `t i`, starting from the empty
cache. -/
def thinkingRun (s : String) (f T sig : Nat → String) (t : Nat → GoTime) (n : Nat) :
    ThinkingCache :=
  (List.range n).foldl (fun acc i => cacheThinking acc s (f i) (T i) (sig i) (t i)) []

/-- A sequence of `n` rate-limit appends of records `rs i` at wall-clock time
`now`, starting from the empty store. -/
def rateLimitRun (rs : Nat → RateLimitRecord) (now : GoTime) (n : Nat) :
    List RateLimitRecord :=
  (List.range n).foldl (fun acc i => storeRecord acc (rs i) now) []

/-- A concrete record sequence for the retention-sweep witness: non-empty
records, the first fifty stamped eight days before `goDay`, the rest stamped
`goDay`. -/
def c7Record (i : Nat) : RateLimitRecord :=
  { emptyRateLimitRecord with
    requestsLimit := 1
    timestamp := if i < 50 then goDay - 8 * goDay else goDay }

/-- A concrete family of pairwise-distinct non-empty thinking ids for the
eviction scenario: `i + 1` copies of the letter a. -/
def c4Id (i : Nat) : String := ⟨List.replicate (i + 1) 'a'⟩

/-! ## Supporting lemmas -/

theorem alGet_alSet_self {α : Type} (k : String) (v : α) (m : List (String × α)) :
    alGet k (alSet k v m) = some v := by
  induction m with
  | nil => simp [alGet, alSet]
  | cons p rest ih =>
    obtain ⟨k', v'⟩ := p
    by_cases h : k' = k <;> simp [alGet, alSet, h, ih]

theorem alSet_append_of_absent {α : Type} {k : String} (v : α)
    {m : List (String × α)} (h : alGet k m = none) : alSet k v m = m ++ [(k, v)] := by
  induction m with
  | nil => simp [alSet]
  | cons p rest ih =>
    obtain ⟨k', v'⟩ := p
    by_cases hk : k' = k
    · simp [alGet, hk] at h
    · simp only [alGet, if_neg hk] at h
      simp [alSet, hk, ih h]

theorem alGet_eq_none_of_not_mem_keys {α : Type} {k : String} {m : List (String × α)}
    (h : k ∉ m.map Prod.fst) : alGet k m = none := by
  induction m with
  | nil => simp [alGet]
  | cons p rest ih =>
    obtain ⟨k', v'⟩ := p
    simp only [List.map_cons, List.mem_cons] at h
    push_neg at h
    simp only [alGet, if_neg (Ne.symm h.1)]
    exact ih h.2

theorem alGet_alDelete_of_nodup {α : Type} {k : String} {m : List (String × α)}
    (h : (m.map Prod.fst).Nodup) : alGet k (alDelete k m) = none := by
  induction m with
  | nil => simp [alDelete, alGet]
  | cons p rest ih =>
    obtain ⟨k', v'⟩ := p
    simp only [List.map_cons, List.nodup_cons] at h
    by_cases hk : k' = k
    · subst hk
      simp only [alDelete, if_pos rfl]
      exact alGet_eq_none_of_not_mem_keys h.1
    · simp only [alDelete, if_neg hk, alGet, if_neg hk]
      exact ih h.2

theorem alSet_mem_keys {α : Type} {k : String} {v : α} {m : List (String × α)}
    {x : String × α} (hx : x ∈ alSet k v m) : x ∈ m ∨ x.1 = k := by
  induction m with
  | nil =>
    simp only [alSet, List.mem_singleton] at hx
    exact Or.inr (by simp [hx])
  | cons p rest ih =>
    obtain ⟨k', v'⟩ := p
    by_cases hk : k' = k
    · simp only [alSet, if_pos hk, List.mem_cons] at hx
      rcases hx with hx | hx
      · exact Or.inr (by simp [hx])
      · exact Or.inl (List.mem_cons_of_mem _ hx)
    · simp only [alSet, if_neg hk, List.mem_cons] at hx
      rcases hx with hx | hx
      · exact Or.inl (by simp [hx])
      · rcases ih hx with hxm | hxk
        · exact Or.inl (List.mem_cons_of_mem _ hxm)
        · exact Or.inr hxk

theorem alSet_keys_nodup {α : Type} (k : String) (v : α) {m : List (String × α)}
    (h : (m.map Prod.fst).Nodup) : ((alSet k v m).map Prod.fst).Nodup := by
  induction m with
  | nil => simp [alSet]
  | cons p rest ih =>
    obtain ⟨k', v'⟩ := p
    simp only [List.map_cons, List.nodup_cons] at h
    by_cases hk : k' = k
    · subst hk
      simpa [alSet] using h
    · simp only [alSet, if_neg hk, List.map_cons, List.nodup_cons]
      refine ⟨?_, ih h.2⟩
      intro hmem
      rcases List.mem_map.mp hmem with ⟨x, hx, he⟩
      rcases alSet_mem_keys hx with hxm | hxk
      · exact h.1 (List.mem_map.mpr ⟨x, hxm, he⟩)
      · exact hk (by rw [← he, hxk])

theorem alDelete_keys_sublist {α : Type} (k : String) (m : List (String × α)) :
    ((alDelete k m).map Prod.fst).Sublist (m.map Prod.fst) := by
  induction m with
  | nil => simp [alDelete]
  | cons p rest ih =>
    obtain ⟨k', v'⟩ := p
    by_cases hk : k' = k
    · simp only [alDelete, if_pos hk, List.map_cons]
      exact List.sublist_cons_self _ _
    · simp only [alDelete, if_neg hk, List.map_cons]
      exact List.Sublist.cons₂ _ ih

theorem foldl_alDelete_keys_sublist {α : Type} (ps : List (String × GoTime))
    (m : List (String × α)) :
    ((ps.foldl (fun acc p => alDelete p.1 acc) m).map Prod.fst).Sublist (m.map Prod.fst) := by
  induction ps generalizing m with
  | nil => simp
  | cons p rest ih =>
    simp only [List.foldl_cons]
    exact (ih (alDelete p.1 m)).trans (alDelete_keys_sublist p.1 m)

theorem evictThinking_keys_sublist (m : EntryMap) (now : GoTime) :
    ((evictThinking m now).map Prod.fst).Sublist (m.map Prod.fst) := by
  have hf : ((m.filter fun p => ¬ now - p.2.timestamp > thinkingCacheTTL).map Prod.fst).Sublist
      (m.map Prod.fst) := (List.filter_sublist m).map Prod.fst
  unfold evictThinking
  dsimp only
  split
  · exact (foldl_alDelete_keys_sublist _ _).trans hf
  · exact hf

/-! ## Claims -/

/-- Claim C10: for a model of group "gemini", `GetCachedSignature` with empty
text returns the sentinel without consulting any cache bucket — the state is
returned unchanged and the result does not depend on the cache contents; for
a model of any other group it returns the empty string. -/
theorem getCachedSignature_empty_text (hashText : String → String) (c : SigCache)
    (modelName : String) (now : GoTime) :
    getCachedSignature hashText c modelName "" now =
      ((if getModelGroup modelName = "gemini" then skipSentinel else ""), c) := by
  simp [getCachedSignature]

/-- Claim C5, counterexample: `CacheThinking` does not check its signature
argument; a put with an empty signature but non-empty session, id and text
inserts an entry and changes the thinking-cache state, so the claim that any
empty argument makes the call a no-op is false. -/
theorem cacheThinking_empty_signature_inserts :
    cacheThinking [] "s" "i" "t" "" 0 ≠ ([] : ThinkingCache) := by decide

/-- Claim C5 (amended): a put with an empty sessionId, thinkingId or thinking
text is a no-op on the thinking-cache state; the signature argument is not
checked, so an empty signature does not prevent insertion. -/
theorem cacheThinking_empty_input_noop (c : ThinkingCache)
    (sessionID thinkingID thinkingText signature : String) (now : GoTime)
    (h : sessionID = "" ∨ thinkingID = "" ∨ thinkingText = "") :
    cacheThinking c sessionID thinkingID thinkingText signature now = c := by
  simp only [cacheThinking, if_pos h]

theorem cacheThinking_empty_input_noop_witness :
    cacheThinking [("s", [])] "" "i" "t" "sig" 3 = [("s", [])] :=
  cacheThinking_empty_input_noop _ _ _ _ _ _ (Or.inl rfl)

/-- Claim C3: after `put(s, id, T, sig)` with non-empty session, id and text
and a valid signature, a get on the same keys strictly less than two hours
later returns exactly the cached pair `(T, sig)`, and a get strictly more
than two hours later returns none and deletes the entry (a repeated get still
finds nothing).  The no-duplicate-keys hypothesis is the invariant every Go
map satisfies. -/
theorem thinking_put_get_roundtrip (c : ThinkingCache) (s id T sig : String)
    (t0 t1 : GoTime) (hs : s ≠ "") (hid : id ≠ "") (hT : T ≠ "")
    (hsig : minValidSignatureLen ≤ goStrLen sig)
    (hnd : (((alGet s c).getD []).map Prod.fst).Nodup) :
    (t1 - t0 < thinkingCacheTTL →
      (getCachedThinking (cacheThinking c s id T sig t0) s id t1).1 =
        some ⟨T, sig, t0⟩) ∧
    (t1 - t0 > thinkingCacheTTL →
      (getCachedThinking (cacheThinking c s id T sig t0) s id t1).1 = none ∧
      (getCachedThinking
        (getCachedThinking (cacheThinking c s id T sig t0) s id t1).2 s id t1).1 = none) := by
  have hguard : ¬ (s = "" ∨ id = "" ∨ T = "") := by
    push_neg
    exact ⟨hs, hid, hT⟩
  set bucket0 : EntryMap := (alGet s c).getD [] with hb0
  set bucketE : EntryMap :=
    if bucket0.length ≥ maxThinkingEntriesPerSession then evictThinking bucket0 t0
    else bucket0 with hbE
  have hput : cacheThinking c s id T sig t0 =
      alSet s (alSet id ⟨T, sig, t0⟩ bucketE) c := by
    simp only [cacheThinking, if_neg hguard, hb0, hbE]
  have hndE : (bucketE.map Prod.fst).Nodup := by
    rw [hbE]
    split
    · exact hnd.sublist (evictThinking_keys_sublist bucket0 t0)
    · exact hnd
  have hndB : ((alSet id ⟨T, sig, t0⟩ bucketE).map Prod.fst).Nodup :=
    alSet_keys_nodup id _ hndE
  have hgetS : alGet s (alSet s (alSet id ⟨T, sig, t0⟩ bucketE) c) =
      some (alSet id ⟨T, sig, t0⟩ bucketE) := alGet_alSet_self ..
  have hgetI : alGet id (alSet id ⟨T, sig, t0⟩ bucketE) = some ⟨T, sig, t0⟩ :=
    alGet_alSet_self ..
  have hguard2 : ¬ (s = "" ∨ id = "") := by
    push_neg
    exact ⟨hs, hid⟩
  constructor
  · intro hfresh
    have hnotexp : ¬ t1 - (⟨T, sig, t0⟩ : ThinkingEntry).timestamp > thinkingCacheTTL := by
      show ¬ t1 - t0 > thinkingCacheTTL
      exact fun hgt => absurd hfresh (not_lt.mpr (le_of_lt hgt))
    simp only [hput, getCachedThinking, if_neg hguard2, hgetS, hgetI, if_neg hnotexp]
  · intro hexp
    have hexp' : t1 - (⟨T, sig, t0⟩ : ThinkingEntry).timestamp > thinkingCacheTTL := hexp
    constructor
    · simp only [hput, getCachedThinking, if_neg hguard2, hgetS, hgetI, if_pos hexp']
    · have h2 : (getCachedThinking (cacheThinking c s id T sig t0) s id t1).2 =
          alSet s (alDelete id (alSet id ⟨T, sig, t0⟩ bucketE))
            (alSet s (alSet id ⟨T, sig, t0⟩ bucketE) c) := by
        simp only [hput, getCachedThinking, if_neg hguard2, hgetS, hgetI, if_pos hexp']
      rw [h2]
      have hgetS2 : alGet s (alSet s (alDelete id (alSet id ⟨T, sig, t0⟩ bucketE))
          (alSet s (alSet id ⟨T, sig, t0⟩ bucketE) c)) =
          some (alDelete id (alSet id ⟨T, sig, t0⟩ bucketE)) := alGet_alSet_self ..
      have hdel : alGet id (alDelete id (alSet id ⟨T, sig, t0⟩ bucketE)) = none :=
        alGet_alDelete_of_nodup hndB
      simp only [getCachedThinking, if_neg hguard2, hgetS2, hdel]

/-- A 50-character signature used by the concrete witnesses. -/
def sampleSig : String := ⟨List.replicate 50 'x'⟩

theorem thinking_put_get_roundtrip_witness :
    (getCachedThinking (cacheThinking [] "s" "i" "T" sampleSig 0) "s" "i" goHour).1 =
      some ⟨"T", sampleSig, 0⟩ ∧
    (getCachedThinking (cacheThinking [] "s" "i" "T" sampleSig 0) "s" "i"
      (thinkingCacheTTL + 1)).1 = none :=
  ⟨(thinking_put_get_roundtrip [] "s" "i" "T" sampleSig 0 goHour (by decide) (by decide)
      (by decide) (by decide) (by decide)).1 (by decide),
   ((thinking_put_get_roundtrip [] "s" "i" "T" sampleSig 0 (thinkingCacheTTL + 1) (by decide)
      (by decide) (by decide) (by decide) (by decide)).2 (by decide)).1⟩

/-- Claim C6: whenever a `GetCachedSignature` call is a miss (no fresh entry
backs it: the text is empty, the bucket or entry is absent, or the entry is
expired), the result is the sentinel `"skip_thought_signature_validator"`
when the model group is "gemini" and the empty string for every other group;
moreover `HasValidSignature(modelName, sentinel)` holds for the gemini
group. -/
theorem gemini_sentinel_on_miss (hashText : String → String) (c : SigCache)
    (modelName text : String) (now : GoTime)
    (hmiss : sigLookupFresh hashText c modelName text now = none) :
    (getCachedSignature hashText c modelName text now).1 =
      (if getModelGroup modelName = "gemini" then skipSentinel else "") ∧
    (getModelGroup modelName = "gemini" → hasValidSignature modelName skipSentinel = true) := by
  constructor
  · by_cases htext : text = ""
    · simp [getCachedSignature, htext]
    · cases hbG : alGet (getModelGroup modelName) c with
      | none => simp [getCachedSignature, htext, hbG]
      | some bucket =>
        cases hbE : alGet (hashText text) bucket with
        | none => simp [getCachedSignature, htext, hbG, hbE]
        | some entry =>
          by_cases hexp : now - entry.timestamp > signatureCacheTTL
          · simp [getCachedSignature, htext, hbG, hbE, hexp]
          · exfalso
            have hsome : sigLookupFresh hashText c modelName text now = some entry := by
              simp only [sigLookupFresh, if_neg htext, hbG, hbE, if_neg hexp]
            rw [hsome] at hmiss
            exact Option.noConfusion hmiss
  · intro hg
    simp [hasValidSignature, hg]

theorem gemini_sentinel_on_miss_witness :
    (getCachedSignature (fun s => s) [] "gemini-2.5-pro" "some text" 0).1 =
      skipSentinel ∧
    hasValidSignature "gemini-2.5-pro" skipSentinel = true := by
  have h := gemini_sentinel_on_miss (fun s => s) [] "gemini-2.5-pro" "some text" 0 (by decide)
  exact ⟨by rw [h.1]; decide, h.2 (by decide)⟩

/-- Claim C9: a get on a present, fresh (within TTL) signature-cache entry
returns its signature and rewrites the entry with its timestamp set to the
time of the get (sliding TTL); consequently, after an insertion at `t0`, a
get at `t0 + 1h` and a subsequent get at `t0 + 2h` both return the cached
signature. -/
theorem signature_sliding_ttl (hashText : String → String) (c : SigCache)
    (modelName text sig : String) (bucket : SigEntryMap) (entry : SignatureEntry)
    (now t0 : GoTime) (htext : text ≠ "")
    (hbucket : alGet (getModelGroup modelName) c = some bucket)
    (hentry : alGet (hashText text) bucket = some entry)
    (hfresh : now - entry.timestamp ≤ signatureCacheTTL)
    (hsig : sig ≠ "") (hlen : minValidSignatureLen ≤ goStrLen sig) :
    getCachedSignature hashText c modelName text now =
      (entry.signature,
       alSet (getModelGroup modelName)
         (alSet (hashText text) ⟨entry.signature, now⟩ bucket) c) ∧
    ((getCachedSignature hashText (cacheSignature hashText c modelName text sig t0)
        modelName text (t0 + goHour)).1 = sig ∧
     (getCachedSignature hashText
        (getCachedSignature hashText (cacheSignature hashText c modelName text sig t0)
          modelName text (t0 + goHour)).2 modelName text (t0 + 2 * goHour)).1 = sig) := by
  have hnotexp : ¬ now - entry.timestamp > signatureCacheTTL := not_lt.mpr hfresh
  constructor
  · simp only [getCachedSignature, if_neg htext, hbucket, hentry, if_neg hnotexp]
  · have hput : cacheSignature hashText c modelName text sig t0 =
        alSet (getModelGroup modelName) (alSet (hashText text) ⟨sig, t0⟩ bucket) c := by
      have hngate : ¬ (text = "" ∨ sig = "") := by
        push_neg
        exact ⟨htext, hsig⟩
      have hnlen : ¬ goStrLen sig < minValidSignatureLen := not_lt.mpr hlen
      simp only [cacheSignature, if_neg hngate, if_neg hnlen, hbucket, Option.getD_some]
    have hone : ¬ t0 + goHour - t0 > signatureCacheTTL := by
      have he : t0 + goHour - t0 = goHour := by ring
      rw [he]
      decide
    have hget1 : getCachedSignature hashText
        (cacheSignature hashText c modelName text sig t0) modelName text (t0 + goHour) =
        (sig, alSet (getModelGroup modelName)
          (alSet (hashText text) ⟨sig, t0 + goHour⟩
            (alSet (hashText text) ⟨sig, t0⟩ bucket))
          (alSet (getModelGroup modelName) (alSet (hashText text) ⟨sig, t0⟩ bucket) c)) := by
      rw [hput]
      simp only [getCachedSignature, if_neg htext, alGet_alSet_self, alGet_alSet_self,
        if_neg hone]
    have htwo : ¬ t0 + 2 * goHour - (t0 + goHour) > signatureCacheTTL := by
      have he : t0 + 2 * goHour - (t0 + goHour) = goHour := by ring
      rw [he]
      decide
    refine ⟨by rw [hget1], ?_⟩
    rw [hget1]
    simp only [getCachedSignature, if_neg htext, alGet_alSet_self, alGet_alSet_self,
      if_neg htwo]

theorem signature_sliding_ttl_witness :
    (getCachedSignature (fun s => s) [("claude", [("text", ⟨sampleSig, 0⟩)])]
        "claude-sonnet" "text" goHour).1 = sampleSig ∧
    (getCachedSignature (fun s => s)
        (getCachedSignature (fun s => s)
          (cacheSignature (fun s => s) [("claude", [("text", ⟨sampleSig, 0⟩)])]
            "claude-sonnet" "text" sampleSig 0)
          "claude-sonnet" "text" (0 + goHour)).2
        "claude-sonnet" "text" (0 + 2 * goHour)).1 = sampleSig := by
  have h := signature_sliding_ttl (fun s => s) [("claude", [("text", ⟨sampleSig, 0⟩)])]
    "claude-sonnet" "text" sampleSig [("text", ⟨sampleSig, 0⟩)] ⟨sampleSig, 0⟩ goHour 0
    (by decide) (by decide) (by decide) (by decide) (by decide) (by decide)
  exact ⟨by rw [h.1], h.2.2⟩

/-- Claim C1: when the first thinkId marker of the text resolves through the
thinking cache to a non-expired entry whose signature passes validity (at
least 50 characters, or the Gemini sentinel), `extractThinkingFromContent`
emits a thinking part carrying exactly the cached thinking text and cached
signature, followed by a text part holding the input text with the
`<think>…</think>` blocks and thinkId markers removed and trimmed; the text
part is omitted when that remainder is empty. -/
theorem thinking_restoration (c : ThinkingCache) (now : GoTime) (sessionID text : String)
    (hexChars : Chars) (entry : ThinkingEntry)
    (hfind : findThinkId text.data = some hexChars)
    (hget : (getCachedThinking c sessionID ⟨hexChars⟩ now).1 = some entry)
    (hval : hasValidSignatureOnSig entry.signature = true) :
    extractThinkingFromContent c now sessionID text =
      ContentPart.thinking entry.thinkingText entry.signature ::
        (if trimSpace (removeThinkIdMarkers
            (removeLazyBlocks thinkOpenPat thinkClosePat text.data)) = [] then []
         else [ContentPart.text ⟨trimSpace (removeThinkIdMarkers
            (removeLazyBlocks thinkOpenPat thinkClosePat text.data))⟩]) := by
  simp only [extractThinkingFromContent, hfind, hget, if_pos hval]

theorem thinking_restoration_witness :
    extractThinkingFromContent [("s", [("a1b2", ⟨"THOUGHT", sampleSig, 0⟩)])] 5 "s"
      "<think>x</think> ```plaintext:thinkId:a1b2``` tail" =
      [ContentPart.thinking "THOUGHT" sampleSig, ContentPart.text "tail"] := by
  have h := thinking_restoration [("s", [("a1b2", ⟨"THOUGHT", sampleSig, 0⟩)])] 5 "s"
    "<think>x</think> ```plaintext:thinkId:a1b2``` tail"
    "a1b2".data ⟨"THOUGHT", sampleSig, 0⟩ (by decide) (by decide) (by decide)
  rw [h]
  decide

theorem puStep_of_empty (b : Bool) (r : RateLimitRecord) (v : String)
    (upd : RateLimitRecord → String → RateLimitRecord) (hv : v = "") :
    puStep b r v upd = (b, r) := by
  simp [puStep, hv]

theorem puStep_of_ne (b : Bool) (r : RateLimitRecord) (v : String)
    (upd : RateLimitRecord → String → RateLimitRecord) (hv : v ≠ "") :
    puStep b r v upd = (true, upd r v) := by
  simp [puStep, hv]

theorem puFold_fst (h : Header)
    (l : List (String × (RateLimitRecord → String → RateLimitRecord)))
    (b : Bool) (r : RateLimitRecord) :
    (l.foldl (fun p st => puStep p.1 p.2 (headerGet h st.1) st.2) (b, r)).1 =
      (b || l.any (fun st => headerGet h st.1 != "")) := by
  induction l generalizing b r with
  | nil => simp
  | cons st rest ih =>
    by_cases hv : headerGet h st.1 = ""
    · rw [List.foldl_cons]
      show (List.foldl _ (puStep b r (headerGet h st.1) st.2) rest).1 = _
      rw [puStep_of_empty b r _ st.2 hv, ih b r, List.any_cons]
      simp [hv]
    · rw [List.foldl_cons]
      show (List.foldl _ (puStep b r (headerGet h st.1) st.2) rest).1 = _
      rw [puStep_of_ne b r _ st.2 hv, ih true _, List.any_cons]
      simp [hv]

theorem puFold_preserve {β : Type} (proj : RateLimitRecord → β) (h : Header)
    (l : List (String × (RateLimitRecord → String → RateLimitRecord)))
    (hupd : ∀ st ∈ l, ∀ r v, proj (st.2 r v) = proj r) (b : Bool) (r : RateLimitRecord) :
    proj (l.foldl (fun p st => puStep p.1 p.2 (headerGet h st.1) st.2) (b, r)).2 = proj r := by
  induction l generalizing b r with
  | nil => simp
  | cons st rest ih =>
    have htail := ih (fun st' hst' => hupd st' (List.mem_cons_of_mem _ hst'))
    by_cases hv : headerGet h st.1 = ""
    · rw [List.foldl_cons]
      show proj (List.foldl _ (puStep b r (headerGet h st.1) st.2) rest).2 = _
      rw [puStep_of_empty b r _ st.2 hv, htail b r]
    · rw [List.foldl_cons]
      show proj (List.foldl _ (puStep b r (headerGet h st.1) st.2) rest).2 = _
      rw [puStep_of_ne b r _ st.2 hv, htail true _,
        hupd st (List.mem_cons_self ..) r _]

theorem unifiedSteps_preserve_std :
    ∀ st ∈ unifiedSteps, ∀ (r : RateLimitRecord) (v : String), stdProj (st.2 r v) = stdProj r := by
  intro st hst
  fin_cases hst <;> intro r v <;> rfl

theorem puFold_noop (h : Header)
    (l : List (String × (RateLimitRecord → String → RateLimitRecord)))
    (hall : ∀ st ∈ l, headerGet h st.1 = "") (b : Bool) (r : RateLimitRecord) :
    l.foldl (fun p st => puStep p.1 p.2 (headerGet h st.1) st.2) (b, r) = (b, r) := by
  induction l with
  | nil => simp
  | cons st rest ih =>
    rw [List.foldl_cons]
    show List.foldl _ (puStep b r (headerGet h st.1) st.2) rest = _
    rw [puStep_of_empty b r _ st.2 (hall st (List.mem_cons_self ..))]
    exact ih (fun st' hst' => hall st' (List.mem_cons_of_mem _ hst'))

/-- Claim C2: a header map with at least one unified header parses to a
record of dialect "unified" whose twelve standard fields are all zero; a
header map with no unified header whose standard extraction is non-empty
parses to a record of dialect "standard" whose unified fields are all
zero. -/
theorem rate_limit_dialect_exclusive (h : Header) (now : GoTime) :
    (unifiedPresent h = true →
      (parseRateLimitHeaders h now).rlType = "unified" ∧
      standardFieldsZero (parseRateLimitHeaders h now)) ∧
    (unifiedPresent h = false →
      isEmptyRecord (parseStandardHeaders h
        {emptyRateLimitRecord with timestamp := now}) = false →
      (parseRateLimitHeaders h now).rlType = "standard" ∧
      unifiedFieldsZero (parseRateLimitHeaders h now)) := by
  constructor
  · intro hu
    have hfound : (parseUnifiedHeaders h {emptyRateLimitRecord with timestamp := now}).1
        = true := by
      rw [parseUnifiedHeaders, puFold_fst]
      simpa [unifiedPresent] using hu
    have hparse : parseRateLimitHeaders h now =
        {(parseUnifiedHeaders h {emptyRateLimitRecord with timestamp := now}).2 with
          rlType := "unified"} := by
      simp only [parseRateLimitHeaders, hfound, if_true]
    have hstd : stdProj (parseUnifiedHeaders h
        {emptyRateLimitRecord with timestamp := now}).2 =
        stdProj {emptyRateLimitRecord with timestamp := now} :=
      puFold_preserve stdProj h unifiedSteps unifiedSteps_preserve_std false _
    refine ⟨by rw [hparse], ?_⟩
    show stdProj (parseRateLimitHeaders h now) = stdProj emptyRateLimitRecord
    rw [hparse]
    calc stdProj {(parseUnifiedHeaders h {emptyRateLimitRecord with timestamp := now}).2 with
            rlType := "unified"}
        = stdProj (parseUnifiedHeaders h {emptyRateLimitRecord with timestamp := now}).2 := rfl
      _ = stdProj {emptyRateLimitRecord with timestamp := now} := hstd
      _ = stdProj emptyRateLimitRecord := rfl
  · intro hu hne
    have hall : ∀ st ∈ unifiedSteps, headerGet h st.1 = "" := by
      intro st hst
      simp only [unifiedPresent, List.any_eq_false] at hu
      have := hu st hst
      simpa using this
    have hnone : parseUnifiedHeaders h {emptyRateLimitRecord with timestamp := now} =
        (false, {emptyRateLimitRecord with timestamp := now}) :=
      puFold_noop h unifiedSteps hall false _
    have hparse : parseRateLimitHeaders h now =
        {parseStandardHeaders h {emptyRateLimitRecord with timestamp := now} with
          rlType := "standard"} := by
      simp only [parseRateLimitHeaders, hnone, hne]
      simp
    exact ⟨by rw [hparse], by rw [hparse]; rfl⟩

theorem rate_limit_dialect_exclusive_witness :
    ((parseRateLimitHeaders [("Anthropic-Ratelimit-Unified-Status", "allowed")] 7).rlType
        = "unified" ∧
      standardFieldsZero
        (parseRateLimitHeaders [("Anthropic-Ratelimit-Unified-Status", "allowed")] 7)) ∧
    ((parseRateLimitHeaders [("Anthropic-Ratelimit-Requests-Limit", "100")] 7).rlType
        = "standard" ∧
      unifiedFieldsZero
        (parseRateLimitHeaders [("Anthropic-Ratelimit-Requests-Limit", "100")] 7)) :=
  ⟨(rate_limit_dialect_exclusive [("Anthropic-Ratelimit-Unified-Status", "allowed")] 7).1
      (by decide),
   (rate_limit_dialect_exclusive [("Anthropic-Ratelimit-Requests-Limit", "100")] 7).2
      (by decide) (by decide)⟩

/-- Claim C8, divergence at the failing input: for an input tools array with
one entry of type "function", the loop body does construct the expected
declaration (name, description, input_schema from `parameters`), but the
translated request carries no `tools` key at all — the loop stores its
declarations only in the undeclared local `anthropicTools`, which is never
written into `out`, and `hasAnthropicTools` is never set, so the trailing
delete leaves the output without tools. -/
theorem tool_declaration_divergence :
    anthropicToolsBuilt
        [⟨some "function", ⟨"get_weather", "Get the weather", some "json-schema", none⟩,
          "", "", none⟩] =
      [⟨"get_weather", "Get the weather", some "json-schema"⟩] ∧
    toolsFieldInOutput
        [⟨some "function", ⟨"get_weather", "Get the weather", some "json-schema", none⟩,
          "", "", none⟩] = none := by
  exact ⟨rfl, rfl⟩

theorem storeRecord_append (records : List RateLimitRecord) (r : RateLimitRecord)
    (now : GoTime) (hne : isEmptyRecord r = false) (hts : r.timestamp ≠ goTimeZero)
    (hmod : ¬ (records.length + 1) % 100 = 0) :
    storeRecord records r now = records ++ [r] := by
  simp only [storeRecord, hne, Bool.false_eq_true, if_false, if_neg hts]
  rw [if_neg]
  simpa using hmod

theorem storeRecord_sweep (records : List RateLimitRecord) (r : RateLimitRecord)
    (now : GoTime) (hne : isEmptyRecord r = false) (hts : r.timestamp ≠ goTimeZero)
    (hmod : (records.length + 1) % 100 = 0) :
    storeRecord records r now = cleanupLocked (records ++ [r]) now := by
  simp only [storeRecord, hne, Bool.false_eq_true, if_false, if_neg hts]
  rw [if_pos]
  simpa using hmod

theorem rateLimitRun_no_sweep (rs : Nat → RateLimitRecord) (t : GoTime)
    (hne : ∀ i, i < 100 → isEmptyRecord (rs i) = false)
    (hts : ∀ i, i < 100 → (rs i).timestamp ≠ goTimeZero) :
    ∀ k, k ≤ 99 → rateLimitRun rs t k = (List.range k).map rs := by
  intro k
  induction k with
  | zero => intro _; rfl
  | succ k ih =>
    intro hk
    have hk' : k ≤ 99 := Nat.le_of_succ_le hk
    unfold rateLimitRun at *
    rw [List.range_succ, List.foldl_append, ih hk']
    simp only [List.foldl_cons, List.foldl_nil]
    rw [storeRecord_append _ _ _ (hne k (by omega)) (hts k (by omega))
      (by simp only [List.length_map, List.length_range]; omega)]
    rw [← List.map_singleton rs, ← List.map_append, ← List.range_succ]

/-- Claim C7: 100 appends into the empty store, the first fifty stamped eight
days before `t` and the rest stamped `t`, leave exactly 50 records (the
100th append's retention sweep drops the stale half) and `latest()` is the
100th record. -/
theorem retention_sweep_100 (rs : Nat → RateLimitRecord) (t : GoTime)
    (h8 : ∀ i, i < 50 → (rs i).timestamp = t - 8 * goDay)
    (hnowts : ∀ i, 50 ≤ i → i < 100 → (rs i).timestamp = t)
    (hne : ∀ i, i < 100 → isEmptyRecord (rs i) = false)
    (hz1 : t ≠ goTimeZero) (hz2 : t - 8 * goDay ≠ goTimeZero) :
    (rateLimitRun rs t 100).length = 50 ∧
    storeLatest (rateLimitRun rs t 100) = some (rs 99) := by
  have hts : ∀ i, i < 100 → (rs i).timestamp ≠ goTimeZero := by
    intro i hi
    by_cases h50 : i < 50
    · rw [h8 i h50]
      exact hz2
    · rw [hnowts i (by omega) hi]
      exact hz1
  have h99 : rateLimitRun rs t 99 = (List.range 99).map rs :=
    rateLimitRun_no_sweep rs t hne hts 99 (le_refl _)
  have hfull : rateLimitRun rs t 100 = cleanupLocked ((List.range 100).map rs) t := by
    unfold rateLimitRun at *
    rw [show (100 : Nat) = 99 + 1 from rfl, List.range_succ, List.foldl_append, h99]
    simp only [List.foldl_cons, List.foldl_nil]
    rw [storeRecord_sweep _ _ _ (hne 99 (by omega)) (hts 99 (by omega))
      (by simp [List.length_map, List.length_range])]
    rw [← List.map_singleton rs, ← List.map_append, ← List.range_succ]
  have hdrop : ∀ i, i < 50 → ¬ ((rs i).timestamp > t - maxRecordAge) := by
    intro i h1
    rw [h8 i h1]
    have hlt : maxRecordAge < 8 * goDay := by norm_num [maxRecordAge, goDay]
    intro hgt
    linarith
  have hkeep : ∀ i, 50 ≤ i → i < 100 → ((rs i).timestamp > t - maxRecordAge) := by
    intro i h1 h2
    rw [hnowts i h1 h2]
    have hpos : (0 : Int) < maxRecordAge := by norm_num [maxRecordAge]
    linarith
  have hsplit : ((List.range 100).map rs) =
      (List.range' 0 50).map rs ++ (List.range' 50 50).map rs := by
    rw [← List.map_append, List.range'_append_1, ← List.range_eq_range']
  have hclean : cleanupLocked ((List.range 100).map rs) t = (List.range' 50 50).map rs := by
    unfold cleanupLocked
    rw [hsplit, List.filter_append]
    have hnil : ((List.range' 0 50).map rs).filter
        (fun r => decide (r.timestamp > t - maxRecordAge)) = [] := by
      rw [List.filter_eq_nil_iff]
      intro a ha
      obtain ⟨i, hi, rfl⟩ := List.mem_map.mp ha
      have hi' : i < 50 := by
        have := List.mem_range'_1.mp hi
        omega
      simpa using hdrop i hi'
    have hself : ((List.range' 50 50).map rs).filter
        (fun r => decide (r.timestamp > t - maxRecordAge)) = (List.range' 50 50).map rs := by
      rw [List.filter_eq_self]
      intro a ha
      obtain ⟨i, hi, rfl⟩ := List.mem_map.mp ha
      have hi' := List.mem_range'_1.mp hi
      simpa using hkeep i (by omega) (by omega)
    rw [hnil, hself, List.nil_append]
  constructor
  · rw [hfull, hclean]
    simp [List.length_map, List.length_range']
  · rw [hfull, hclean]
    have hconcat : List.range' 50 50 = List.range' 50 49 ++ [99] :=
      List.range'_1_concat 50 49
    rw [storeLatest, hconcat, List.map_append]
    exact List.getLast?_concat _

theorem retention_sweep_100_witness :
    (rateLimitRun c7Record goDay 100).length = 50 ∧
    storeLatest (rateLimitRun c7Record goDay 100) =
      some {emptyRateLimitRecord with requestsLimit := 1, timestamp := goDay} := by
  have h := retention_sweep_100 c7Record goDay
    (fun i hi => by simp [c7Record, hi]) (fun i h1 h2 => by simp [c7Record, Nat.not_lt.mpr h1])
    (fun i _ => by simp [c7Record, isEmptyRecord, emptyRateLimitRecord]) (by decide) (by decide)
  exact ⟨h.1, h.2.trans (by decide)⟩

theorem alGet_singleton {α : Type} (s : String) (B : α) : alGet s [(s, B)] = some B := by
  simp [alGet]

theorem alGet_append_left {α : Type} {k : String} {l₁ : List (String × α)} {v : α}
    (l₂ : List (String × α)) (h : alGet k l₁ = some v) : alGet k (l₁ ++ l₂) = some v := by
  induction l₁ with
  | nil => simp [alGet] at h
  | cons p rest ih =>
    obtain ⟨k', v'⟩ := p
    by_cases hk : k' = k
    · simp only [alGet, if_pos hk] at h
      simp [alGet, hk, h]
    · simp only [alGet, if_neg hk] at h
      simpa [alGet, hk] using ih h

theorem alGet_append_right {α : Type} {k : String} {l₁ : List (String × α)}
    (l₂ : List (String × α)) (h : alGet k l₁ = none) : alGet k (l₁ ++ l₂) = alGet k l₂ := by
  induction l₁ with
  | nil => simp
  | cons p rest ih =>
    obtain ⟨k', v'⟩ := p
    by_cases hk : k' = k
    · simp [alGet, hk] at h
    · simp only [alGet, if_neg hk] at h
      simpa [alGet, hk] using ih h

theorem alGet_map_eq_some {α : Type} (g : Nat → String) (ev : Nat → α) :
    ∀ (l : List Nat) (i : Nat), i ∈ l → (∀ j ∈ l, g j = g i → j = i) →
    alGet (g i) (l.map (fun j => (g j, ev j))) = some (ev i) := by
  intro l
  induction l with
  | nil => intro i hi; simp at hi
  | cons j rest ih =>
    intro i hi hinj
    simp only [List.map_cons, alGet]
    by_cases he : g j = g i
    · have hji : j = i := hinj j (List.mem_cons_self ..) he
      subst hji
      simp
    · rw [if_neg he]
      have hi' : i ∈ rest := by
        rcases List.mem_cons.mp hi with h | h
        · exact absurd (congrArg g h.symm) he
        · exact h
      exact ih i hi' (fun j' hj' => hinj j' (List.mem_cons_of_mem _ hj'))

theorem insertByTs_of_forall_lt (p : String × GoTime) (l : List (String × GoTime))
    (h : ∀ q ∈ l, p.2 < q.2) : insertByTs p l = p :: l := by
  cases l with
  | nil => rfl
  | cons q rest => simp [insertByTs, h q (List.mem_cons_self ..)]

theorem sortByTs_of_pairwise (l : List (String × GoTime))
    (h : l.Pairwise (fun a b => a.2 < b.2)) : sortByTs l = l := by
  induction l with
  | nil => rfl
  | cons p rest ih =>
    rw [sortByTs, ih (List.Pairwise.of_cons h)]
    exact insertByTs_of_forall_lt p rest (fun q hq => (List.pairwise_cons.mp h).1 q hq)

theorem foldl_alDelete_aligned {α : Type} :
    ∀ (ks : List (String × GoTime)) (m : List (String × α)),
    ks.map Prod.fst = (m.take ks.length).map Prod.fst →
    ks.foldl (fun acc p => alDelete p.1 acc) m = m.drop ks.length := by
  intro ks
  induction ks with
  | nil => intro m _; rfl
  | cons k ks' ih =>
    intro m hkeys
    cases m with
    | nil => simp at hkeys
    | cons m0 m' =>
      simp only [List.length_cons, List.take_succ_cons, List.map_cons, List.cons.injEq] at hkeys
      obtain ⟨h1, h2⟩ := hkeys
      simp only [List.foldl_cons]
      rw [show alDelete k.1 (m0 :: m') = m' by simp [alDelete, h1.symm]]
      rw [ih m' h2]
      simp

theorem t_mono_le (t : Nat → GoTime) (hmono : ∀ i, i < 100 → t i < t (i + 1)) :
    ∀ j, j ≤ 100 → ∀ i, i ≤ j → t i ≤ t j := by
  intro j
  induction j with
  | zero =>
    intro _ i hi
    have h0 : i = 0 := Nat.le_zero.mp hi
    subst h0
    exact le_refl _
  | succ j ih =>
    intro hj i hi
    rcases Nat.lt_or_ge i (j + 1) with hlt | hge
    · have h1 : t i ≤ t j := ih (by omega) i (by omega)
      have h2 : t j < t (j + 1) := hmono j (by omega)
      linarith
    · have hij : i = j + 1 := by omega
      subst hij
      exact le_refl _

theorem t_mono_lt (t : Nat → GoTime) (hmono : ∀ i, i < 100 → t i < t (i + 1)) :
    ∀ j, j ≤ 100 → ∀ i, i < j → t i < t j := by
  intro j hj i hij
  match j, hj, hij with
  | j' + 1, hj, hij =>
    have h1 : t i ≤ t j' := t_mono_le t hmono j' (by omega) i (by omega)
    have h2 : t j' < t (j' + 1) := hmono j' (by omega)
    linarith

theorem thinkingRun_succ (s : String) (f T sig : Nat → String) (t : Nat → GoTime) (n : Nat) :
    thinkingRun s f T sig t (n + 1) =
      cacheThinking (thinkingRun s f T sig t n) s (f n) (T n) (sig n) (t n) := by
  unfold thinkingRun
  rw [List.range_succ, List.foldl_append]
  rfl

theorem cacheThinking_from_empty (s id T sig : String) (now : GoTime)
    (hs : s ≠ "") (hid : id ≠ "") (hT : T ≠ "") :
    cacheThinking [] s id T sig now = [(s, [(id, ⟨T, sig, now⟩)])] := by
  have hguard : ¬ (s = "" ∨ id = "" ∨ T = "") := by
    push_neg
    exact ⟨hs, hid, hT⟩
  simp [cacheThinking, if_neg hguard, alGet, alSet, maxThinkingEntriesPerSession]

theorem cacheThinking_single_small (s id T sig : String) (now : GoTime) (B : EntryMap)
    (hs : s ≠ "") (hid : id ≠ "") (hT : T ≠ "")
    (hlen : B.length < maxThinkingEntriesPerSession) :
    cacheThinking [(s, B)] s id T sig now = [(s, alSet id ⟨T, sig, now⟩ B)] := by
  have hguard : ¬ (s = "" ∨ id = "" ∨ T = "") := by
    push_neg
    exact ⟨hs, hid, hT⟩
  simp [cacheThinking, if_neg hguard, alGet, alSet, Nat.not_le.mpr hlen]

theorem cacheThinking_single_full (s id T sig : String) (now : GoTime) (B : EntryMap)
    (hs : s ≠ "") (hid : id ≠ "") (hT : T ≠ "")
    (hlen : B.length ≥ maxThinkingEntriesPerSession) :
    cacheThinking [(s, B)] s id T sig now =
      [(s, alSet id ⟨T, sig, now⟩ (evictThinking B now))] := by
  have hguard : ¬ (s = "" ∨ id = "" ∨ T = "") := by
    push_neg
    exact ⟨hs, hid, hT⟩
  simp [cacheThinking, if_neg hguard, alGet, alSet, hlen]

theorem thinkingRun_build (s : String) (f T sig : Nat → String) (t : Nat → GoTime)
    (hs : s ≠ "")
    (hf : ∀ i, i < 101 → ∀ j, j < 101 → f i = f j → i = j)
    (hfne : ∀ i, i < 101 → f i ≠ "") (hT : ∀ i, i < 101 → T i ≠ "") :
    ∀ k, 1 ≤ k → k ≤ 100 → thinkingRun s f T sig t k =
      [(s, (List.range k).map (fun i => (f i, (⟨T i, sig i, t i⟩ : ThinkingEntry))))] := by
  intro k
  induction k with
  | zero => intro h _; exact absurd h (by omega)
  | succ k ih =>
    intro _ hk
    rcases Nat.eq_zero_or_pos k with rfl | hkpos
    · rw [thinkingRun_succ]
      have h0 : thinkingRun s f T sig t 0 = [] := rfl
      rw [h0, cacheThinking_from_empty _ _ _ _ _ hs (hfne 0 (by omega)) (hT 0 (by omega))]
      rfl
    · rw [thinkingRun_succ, ih (by omega) (by omega)]
      rw [cacheThinking_single_small s (f k) (T k) (sig k) (t k) _ hs (hfne k (by omega))
        (hT k (by omega))
        (by simp only [List.length_map, List.length_range, maxThinkingEntriesPerSession]; omega)]
      have habs : alGet (f k)
          ((List.range k).map (fun i => (f i, (⟨T i, sig i, t i⟩ : ThinkingEntry)))) = none := by
        apply alGet_eq_none_of_not_mem_keys
        intro hmem
        rw [List.map_map] at hmem
        obtain ⟨i, hir, heq⟩ := List.mem_map.mp hmem
        have hik : i < k := List.mem_range.mp hir
        have : i = k := hf i (by omega) k (by omega) heq
        omega
      rw [alSet_append_of_absent _ habs, List.range_succ, List.map_append]
      rfl

/-- The session bucket after 101 puts with distinct unexpired ids: the 25
oldest entries are swept and the 101st is appended. -/
theorem thinkingRun101_bucket (s : String) (f T sig : Nat → String) (t : Nat → GoTime)
    (hs : s ≠ "")
    (hf : ∀ i, i < 101 → ∀ j, j < 101 → f i = f j → i = j)
    (hfne : ∀ i, i < 101 → f i ≠ "")
    (hT : ∀ i, i < 101 → T i ≠ "")
    (hmono : ∀ i, i < 100 → t i < t (i + 1))
    (httl : t 100 - t 0 ≤ thinkingCacheTTL) :
    (alGet s (thinkingRun s f T sig t 101)).getD [] =
      (List.range' 25 75).map (fun i => (f i, (⟨T i, sig i, t i⟩ : ThinkingEntry))) ++
        [(f 100, ⟨T 100, sig 100, t 100⟩)] := by
  have hrun100 := thinkingRun_build s f T sig t hs hf hfne hT 100 (by omega) (by omega)
  have hstep : thinkingRun s f T sig t 101 =
      [(s, alSet (f 100) ⟨T 100, sig 100, t 100⟩
        (evictThinking ((List.range 100).map
          (fun i => (f i, (⟨T i, sig i, t i⟩ : ThinkingEntry)))) (t 100)))] := by
    rw [show (101 : Nat) = 100 + 1 from rfl, thinkingRun_succ, hrun100]
    exact cacheThinking_single_full s (f 100) (T 100) (sig 100) (t 100) _ hs
      (hfne 100 (by omega)) (hT 100 (by omega))
      (by simp [List.length_map, List.length_range, maxThinkingEntriesPerSession])
  have hswept : ((List.range 100).map
      (fun i => (f i, (⟨T i, sig i, t i⟩ : ThinkingEntry)))).filter
        (fun p => ¬ t 100 - p.2.timestamp > thinkingCacheTTL) =
      (List.range 100).map (fun i => (f i, (⟨T i, sig i, t i⟩ : ThinkingEntry))) := by
    rw [List.filter_eq_self]
    intro a ha
    obtain ⟨i, hi, rfl⟩ := List.mem_map.mp ha
    have hi' : i < 100 := List.mem_range.mp hi
    have h0i : t 0 ≤ t i := t_mono_le t hmono i (by omega) 0 (by omega)
    have hfr : ¬ t 100 - t i > thinkingCacheTTL := by
      intro hgt
      have hle : t 100 - t i ≤ thinkingCacheTTL := by linarith
      linarith
    simpa using hfr
  have hpair : ((List.range 100).map (fun i => (f i, t i))).Pairwise
      (fun a b => a.2 < b.2) := by
    rw [List.pairwise_map]
    refine List.Pairwise.imp_of_mem ?_ (List.pairwise_lt_range 100)
    intro a b ha hb hab
    exact t_mono_lt t hmono b (by have := List.mem_range.mp hb; omega) a hab
  have hevict : evictThinking ((List.range 100).map
      (fun i => (f i, (⟨T i, sig i, t i⟩ : ThinkingEntry)))) (t 100) =
      ((List.range 100).map (fun i => (f i, (⟨T i, sig i, t i⟩ : ThinkingEntry)))).drop 25 := by
    unfold evictThinking
    dsimp only
    rw [hswept]
    rw [if_pos (by simp [List.length_map, List.length_range, maxThinkingEntriesPerSession])]
    have hmm : ((List.range 100).map
        (fun i => (f i, (⟨T i, sig i, t i⟩ : ThinkingEntry)))).map
          (fun p => (p.1, p.2.timestamp)) =
        (List.range 100).map (fun i => (f i, t i)) := by
      rw [List.map_map]
      rfl
    rw [hmm, sortByTs_of_pairwise _ hpair]
    have h25 : (if ((List.range 100).map (fun i => (f i, t i))).length / 4 < 1 then 1
        else ((List.range 100).map (fun i => (f i, t i))).length / 4) = 25 := by
      simp [List.length_map, List.length_range]
    rw [h25]
    rw [foldl_alDelete_aligned _ _ ?hkeys]
    case hkeys =>
      simp only [List.length_take, List.length_map, List.length_range]
      rw [← List.map_take, List.take_range, ← List.map_take, List.take_range]
      have hmin : (25 : Nat) ⊓ 100 = 25 := by norm_num
      rw [hmin, List.map_map, List.map_map]
      rfl
    simp [List.length_take, List.length_map, List.length_range]
  have hdrop75 : ((List.range 100).map
      (fun i => (f i, (⟨T i, sig i, t i⟩ : ThinkingEntry)))).drop 25 =
      (List.range' 25 75).map (fun i => (f i, (⟨T i, sig i, t i⟩ : ThinkingEntry))) := by
    have hdr : (List.range 100).drop 25 = List.range' 25 75 := by decide
    rw [← List.map_drop, hdr]
  have hget_none : ∀ x, x < 101 → ¬ (25 ≤ x ∧ x < 100) →
      alGet (f x) ((List.range' 25 75).map
        (fun j => (f j, (⟨T j, sig j, t j⟩ : ThinkingEntry)))) = none := by
    intro x hx hnx
    apply alGet_eq_none_of_not_mem_keys
    intro hmem
    rw [List.map_map] at hmem
    obtain ⟨j, hjr, heq⟩ := List.mem_map.mp hmem
    have hj := List.mem_range'_1.mp hjr
    have hjx : j = x := hf j (by omega) x (by omega) heq
    omega
  have hfinal : thinkingRun s f T sig t 101 =
      [(s, (List.range' 25 75).map (fun i => (f i, (⟨T i, sig i, t i⟩ : ThinkingEntry))) ++
        [(f 100, ⟨T 100, sig 100, t 100⟩)])] := by
    rw [hstep, hevict, hdrop75,
      alSet_append_of_absent _ (hget_none 100 (by omega) (by omega))]
  rw [hfinal, alGet_singleton]
  rfl

/-- The keys an id family never hits inside the surviving 25..99 window. -/
theorem range'_25_75_get_none (f T sig : Nat → String) (t : Nat → GoTime)
    (hf : ∀ i, i < 101 → ∀ j, j < 101 → f i = f j → i = j)
    (x : Nat) (hx : x < 101) (hnx : ¬ (25 ≤ x ∧ x < 100)) :
    alGet (f x) ((List.range' 25 75).map
      (fun j => (f j, (⟨T j, sig j, t j⟩ : ThinkingEntry)))) = none := by
  apply alGet_eq_none_of_not_mem_keys
  intro hmem
  rw [List.map_map] at hmem
  obtain ⟨j, hjr, heq⟩ := List.mem_map.mp hmem
  have hj := List.mem_range'_1.mp hjr
  have hjx : j = x := hf j (by omega) x (by omega) heq
  omega

/-- Claim C4 (amended): 101 puts into one session with pairwise-distinct
non-empty ids, strictly increasing timestamps and nothing expired evict
exactly the 25 oldest-by-timestamp entries among the first 100 — the sweep
happens before the insertion, so no additional entry is deleted for the
101st — leaving the session with 75 of the first 100 entries plus the 101st
(76 in total). -/
theorem thinking_eviction_101 (s : String) (f T sig : Nat → String) (t : Nat → GoTime)
    (hs : s ≠ "")
    (hf : ∀ i, i < 101 → ∀ j, j < 101 → f i = f j → i = j)
    (hfne : ∀ i, i < 101 → f i ≠ "")
    (hT : ∀ i, i < 101 → T i ≠ "")
    (hmono : ∀ i, i < 100 → t i < t (i + 1))
    (httl : t 100 - t 0 ≤ thinkingCacheTTL) :
    (∀ i, i < 25 →
      alGet (f i) ((alGet s (thinkingRun s f T sig t 101)).getD []) = none) ∧
    (∀ i, 25 ≤ i → i < 101 →
      alGet (f i) ((alGet s (thinkingRun s f T sig t 101)).getD []) =
        some ⟨T i, sig i, t i⟩) ∧
    ((alGet s (thinkingRun s f T sig t 101)).getD []).length = 76 := by
  have hbucket := thinkingRun101_bucket s f T sig t hs hf hfne hT hmono httl
  refine ⟨?_, ?_, ?_⟩
  · intro i hi
    rw [hbucket, alGet_append_right _
      (range'_25_75_get_none f T sig t hf i (by omega) (by omega))]
    have hne : ¬ (f 100 = f i) := by
      intro heq
      have := hf 100 (by omega) i (by omega) heq
      omega
    simp [alGet, hne]
  · intro i h25 h101
    rw [hbucket]
    rcases Nat.lt_or_ge i 100 with hi100 | hi100
    · refine alGet_append_left _ ?_
      exact alGet_map_eq_some f (fun j => (⟨T j, sig j, t j⟩ : ThinkingEntry)) (List.range' 25 75) i
        (List.mem_range'_1.mpr ⟨h25, by omega⟩)
        (fun j hj heq => hf j (by have := List.mem_range'_1.mp hj; omega) i (by omega) heq)
    · have hieq : i = 100 := by omega
      subst hieq
      rw [alGet_append_right _
        (range'_25_75_get_none f T sig t hf 100 (by omega) (by omega))]
      simp [alGet]
  · rw [hbucket]
    simp [List.length_append, List.length_map, List.length_range']

theorem c4Id_inj (i j : Nat) (h : c4Id i = c4Id j) : i = j := by
  have hlen := congrArg (fun s => s.data.length) h
  simp only [c4Id, List.length_replicate] at hlen
  omega

theorem c4Id_ne_empty (i : Nat) : c4Id i ≠ "" := by
  intro h
  have hlen := congrArg (fun s => s.data.length) h
  simp [c4Id] at hlen

/-- Claim C4, counterexample: after 101 puts into session "s" with the
distinct ids `c4Id i`, text "t" and timestamps `i`, the entry of the 26th
oldest timestamp (id `c4Id 25`) is still present, so the claim that exactly
the 26 oldest-by-timestamp entries have been evicted is false — the code
deletes only `max(1, 100/4) = 25` entries, and the sweep already made room
for the 101st insertion. -/
theorem thinking_eviction_claim_counterexample :
    alGet (c4Id 25) ((alGet "s" (thinkingRun "s" c4Id (fun _ => "t") (fun _ => "")
      (fun i => (i : Int)) 101)).getD []) =
      some ⟨"t", "", (25 : Int)⟩ := by
  have hbucket := thinkingRun101_bucket "s" c4Id (fun _ => "t") (fun _ => "")
    (fun i => (i : Int)) (by decide) (fun i _ j _ h => c4Id_inj i j h)
    (fun i _ => c4Id_ne_empty i) (fun i _ => by show "t" ≠ ""; decide)
    (fun i _ => by show ((i : Int)) < (((i + 1 : Nat)) : Int); exact_mod_cast Nat.lt_succ_self i)
    (by decide)
  rw [hbucket]
  refine alGet_append_left _ ?_
  exact alGet_map_eq_some c4Id (fun j => (⟨"t", "", (j : Int)⟩ : ThinkingEntry))
    (List.range' 25 75) 25
    (List.mem_range'_1.mpr (by omega))
    (fun j hj heq => c4Id_inj j 25 heq)

theorem thinking_eviction_101_witness :
    alGet (c4Id 0) ((alGet "s" (thinkingRun "s" c4Id (fun _ => "t") (fun _ => "")
      (fun i => (i : Int)) 101)).getD []) = none ∧
    alGet (c4Id 100) ((alGet "s" (thinkingRun "s" c4Id (fun _ => "t") (fun _ => "")
      (fun i => (i : Int)) 101)).getD []) = some ⟨"t", "", (100 : Int)⟩ ∧
    ((alGet "s" (thinkingRun "s" c4Id (fun _ => "t") (fun _ => "")
      (fun i => (i : Int)) 101)).getD []).length = 76 := by
  have h := thinking_eviction_101 "s" c4Id (fun _ => "t") (fun _ => "")
    (fun i => (i : Int)) (by decide) (fun i _ j _ hij => c4Id_inj i j hij)
    (fun i _ => c4Id_ne_empty i) (fun i _ => by show "t" ≠ ""; decide)
    (fun i _ => by show ((i : Int)) < (((i + 1 : Nat)) : Int); exact_mod_cast Nat.lt_succ_self i)
    (by decide)
  exact ⟨h.1 0 (by omega), h.2.1 100 (by omega) (by omega), h.2.2⟩

end CLIProxy
